import Mathlib

/-!
# Verification of `django_elasticsearch_dsl/management/commands/search_index.py`

A shallow embedding, in Lean 4, of the orchestration core of the
`search_index` management command: filter resolution (`_get_models`),
deletion with confirmation (`_delete`), rebuild sequencing (`_rebuild`),
zero-downtime reindexing via alias swap (`_reindex`), and generation-name
derivation (`_next_index_name`).  Python strings are modelled as Lean
`String`s (with ASCII lowercasing for `str.lower`), the Elasticsearch
backend as an explicit state (`ES`) acted on by an operation type (`EsOp`),
and fallible paths as `Except`.
-/

/-- Python `str.lower()`, restricted to ASCII case mapping (every string
the claims involve is ASCII; `Char.toLower` lowercases exactly the ASCII
range).  Written as a character-list map, which is what `String.toLower`
computes (`String.map_eq`). -/
def pyLower (s : String) : String := ⟨s.data.map Char.toLower⟩

theorem pyLower_eq_toLower (s : String) : pyLower s = s.toLower :=
  (String.map_eq Char.toLower s).symm

/-- A registered Django model, as far as `_get_models` observes it:
`model._meta.app_label` and `model._meta.model_name`. -/
structure Model where
  app_label : String
  model_name : String
deriving DecidableEq, Repr

/-- One iteration body of the inner loop of `_get_models`: a model matches a
(lowercased) filter string `argL` when `model._meta.app_label == arg` or
`'{}.{}'.format(app_label.lower(), model_name.lower()) == arg`.  Note the
source lowercases only the argument in the first comparison. -/
def matchesArg (argL : String) (m : Model) : Bool :=
  m.app_label == argL ||
    (pyLower m.app_label ++ "." ++ pyLower m.model_name) == argL

/-- The `for arg in args` loop of `_get_models`: each filter string is
lowercased, every registered model matching it is appended, and a filter
matching nothing raises `CommandError` at once (fail-fast). -/
def resolveLoop (reg : List Model) : List String → List Model → Except String (List Model)
  | [], acc => .ok acc
  | arg :: rest, acc =>
    let ms := reg.filter (matchesArg (pyLower arg))
    if ms.isEmpty then .error ("No model or app named " ++ arg)
    else resolveLoop reg rest (acc ++ ms)

/-- `_get_models(args)`: an empty (falsy) `--models` argument returns every
registered model; otherwise the loop above.  The final Python `set(models)`
only deduplicates, so we keep the list and reason up to membership. -/
def getModels (reg : List Model) (args : List String) : Except String (List Model) :=
  if args.isEmpty then .ok reg else resolveLoop reg args []

section ResolveLemmas

theorem resolveLoop_error_iff (reg : List Model) (args : List String) (acc : List Model) :
    (∃ msg, resolveLoop reg args acc = .error msg) ↔
      ∃ arg ∈ args, reg.filter (matchesArg (pyLower arg)) = [] := by
  induction args generalizing acc with
  | nil => simp [resolveLoop]
  | cons a rest ih =>
    simp only [resolveLoop, List.isEmpty_iff]
    by_cases h : reg.filter (matchesArg (pyLower a)) = []
    · rw [if_pos h]
      constructor
      · intro _; exact ⟨a, List.mem_cons_self a rest, h⟩
      · intro _; exact ⟨_, rfl⟩
    · rw [if_neg h, ih]
      constructor
      · rintro ⟨arg, harg, hfil⟩; exact ⟨arg, List.mem_cons_of_mem _ harg, hfil⟩
      · rintro ⟨arg, harg, hfil⟩
        rcases List.mem_cons.mp harg with rfl | harg'
        · exact absurd hfil h
        · exact ⟨arg, harg', hfil⟩

theorem resolveLoop_ok_subset (reg : List Model) (args : List String) (acc ms : List Model)
    (h : resolveLoop reg args acc = .ok ms) :
    ∀ m ∈ ms, m ∈ acc ∨ m ∈ reg := by
  induction args generalizing acc with
  | nil =>
    simp only [resolveLoop, Except.ok.injEq] at h
    subst h; exact fun m hm => Or.inl hm
  | cons a rest ih =>
    simp only [resolveLoop, List.isEmpty_iff] at h
    by_cases he : reg.filter (matchesArg (pyLower a)) = []
    · rw [if_pos he] at h; exact absurd h (by simp)
    · rw [if_neg he] at h
      intro m hm
      rcases ih _ h m hm with h' | h'
      · rcases List.mem_append.mp h' with h'' | h''
        · exact Or.inl h''
        · exact Or.inr (List.mem_of_mem_filter h'')
      · exact Or.inr h'

end ResolveLemmas

/-! ## `_delete` and `_rebuild`

The backend index set is a list of index names.  `index.delete(ignore=404)`
is modelled by `indexDelete` with `ignore404 = true`: a missing index is not
an error.  `_delete` returns `False` (abort) or `True` (success) as a value,
never an exception, and we additionally record the list of backend delete
calls it issues. -/

/-- `index.delete(ignore=...)`: removing an index that exists succeeds;
removing a missing one succeeds when the 404 status is ignored (as the
source always does, via `ignore=404`) and errors with status 404 otherwise. -/
def indexDelete (ignore404 : Bool) (name : String) (st : List String) :
    Except Nat (List String) :=
  if st.contains name then .ok (st.filter (· ≠ name))
  else if ignore404 then .ok st else .error 404

/-- The deletion loop of `_delete`: each index in turn, always with
`ignore=404`; a raised error would abort the loop (Except bind). -/
def deleteIndices : List String → List String → Except Nat (List String)
  | [], st => .ok st
  | n :: rest, st => (indexDelete true n st).bind (deleteIndices rest)

/-- `_delete(models, options)` for a binding set whose indices are `names`:
without `force`, a confirmation response whose lowercase form is not `"y"`
aborts with `False` and zero backend delete calls; otherwise every index is
deleted (ignoring 404) and `True` is returned.  The result carries the
boolean outcome, the backend index state, and the delete calls issued. -/
def deleteCmd (names : List String) (force : Bool) (response : String)
    (st : List String) : Except Nat (Bool × List String × List String) :=
  if force = false ∧ pyLower response ≠ "y" then .ok (false, st, [])
  else do
    let st' ← deleteIndices names st
    .ok (true, st', names)

/-- Observable operations of the non-reindex commands, for sequencing
claims about `_rebuild`. -/
inductive CmdOp where
  | deleteIdx (name : String)
  | createIdx (name : String)
  | populateDoc (doc : String)
deriving DecidableEq, Repr

/-- `_rebuild(models, options)`: run `_delete`; if it returned `False`,
stop (no create, no populate); otherwise `_create` then `_populate`,
strictly in that order.  The result is the trace of operations issued. -/
def rebuildCmd (names docs : List String) (force : Bool) (response : String)
    (st : List String) : Except Nat (List CmdOp) :=
  (deleteCmd names force response st).bind fun r =>
    if r.1 then
      .ok (r.2.2.map CmdOp.deleteIdx ++ names.map CmdOp.createIdx
        ++ docs.map CmdOp.populateDoc)
    else .ok (r.2.2.map CmdOp.deleteIdx)

section DeleteLemmas

theorem indexDelete_ignore (n : String) (st : List String) :
    indexDelete true n st = .ok (st.filter (· ≠ n)) := by
  unfold indexDelete
  by_cases h : st.contains n
  · rw [if_pos h]
  · rw [if_neg h, if_pos rfl]
    have hn : n ∉ st := by simpa using h
    have : st.filter (· ≠ n) = st := by
      apply List.filter_eq_self.mpr
      intro a ha
      simp only [ne_eq, decide_eq_true_eq]
      rintro rfl
      exact hn ha
    rw [this]

theorem deleteIndices_ok (names st : List String) :
    deleteIndices names st = .ok (st.filter (fun x => ¬ x ∈ names)) := by
  induction names generalizing st with
  | nil => simp [deleteIndices]
  | cons n rest ih =>
    rw [deleteIndices, indexDelete_ignore]
    show deleteIndices rest (st.filter (· ≠ n)) = _
    rw [ih, List.filter_filter]
    congr 1
    apply List.filter_congr
    intro a _
    by_cases h1 : a = n <;> by_cases h2 : a ∈ rest <;> simp [h1, h2]

end DeleteLemmas

/-! ## `_reindex`

The Elasticsearch backend state: the set of concrete indices, and the alias
table as (alias, index) pairs.  `_reindex` issues, per document:
`init(next_index)` (index creation), a bulk `update` into `next_index`, a
`refresh`, a standalone `put_alias(next_index, alias)`, a single
`update_aliases` call whose body removes the alias from every index
matching `'<alias>-*'` and adds it to `next_index` (one atomic backend
request, actions applied in order), and finally one `delete` per index in a
fresh `indices.get('<alias>-*')` listing other than `next_index`. -/

/-- Backend state: existing indices and the alias table. -/
structure ES where
  indices : List String
  aliasPairs : List (String × String)
deriving DecidableEq, Repr

/-- The indices an alias currently points at. -/
def aliasIndices (st : ES) (a : String) : List String :=
  (st.aliasPairs.filter (·.1 == a)).map (·.2)

/-- Wildcard match for the generation pattern `'{}-*'.format(alias)`: a name
matches iff it starts with `alias ++ "-"`. -/
def matchesPattern (a name : String) : Bool :=
  (a ++ "-").data.isPrefixOf name.data

/-- One backend request, as issued by `_reindex`.  `swapAlias a pat next` is
the single combined `update_aliases` call: remove alias `a` from every index
matching `pat`, then add `a → next`, atomically. -/
inductive EsOp where
  | createIndex (name : String)
  | bulkWrite (index : String)
  | refreshIndex (index : String)
  | putAlias (index a : String)
  | swapAlias (a pat next : String)
  | deleteIndex (name : String)
deriving DecidableEq, Repr

/-- Whether a name matches a generation pattern of the form `<alias>-*`
(the pattern is stored as its literal prefix `<alias>-`). -/
def patMatches (pat name : String) : Bool :=
  pat.data.isPrefixOf name.data

/-- Effect of one backend request on the backend state.  Each constructor is
one atomic request; between two requests the state is observable. -/
def applyOp (st : ES) : EsOp → ES
  | .createIndex n =>
    { st with indices := if st.indices.contains n then st.indices else st.indices ++ [n] }
  | .bulkWrite _ => st
  | .refreshIndex _ => st
  | .putAlias i a =>
    { st with aliasPairs :=
        if st.aliasPairs.contains (a, i) then st.aliasPairs else st.aliasPairs ++ [(a, i)] }
  | .swapAlias a pat next =>
    { st with aliasPairs :=
        (st.aliasPairs.filter (fun p => ¬ (p.1 == a && patMatches pat p.2))) ++ [(a, next)] }
  | .deleteIndex n =>
    { indices := st.indices.filter (· ≠ n),
      aliasPairs := st.aliasPairs.filter (·.2 ≠ n) }

/-- The five requests `_reindex` issues for one document before the reclaim
phase: create the new generation, bulk-index into it by explicit name,
refresh it, `put_alias`, then the combined `update_aliases`. -/
def reindexPrefixOps (al next : String) : List EsOp :=
  [.createIndex next, .bulkWrite next, .refreshIndex next,
   .putAlias next al, .swapAlias al (al ++ "-") next]

/-- Backend state right after the al swap (before reclaim). -/
def reindexMid (al next : String) (st0 : ES) : ES :=
  (reindexPrefixOps al next).foldl applyOp st0

/-- `old_indices`: the fresh listing `indices.get('<al>-*')` taken after
the swap, minus the just-created generation. -/
def reindexOlds (al next : String) (st0 : ES) : List String :=
  ((reindexMid al next st0).indices.filter (matchesPattern al)).filter (· ≠ next)

/-- Full per-document `_reindex` pass: the five prefix requests, then one
delete per old generation.  Returns the final state and the request trace. -/
def reindexOne (al next : String) (st0 : ES) : ES × List EsOp :=
  let st1 := reindexMid al next st0
  let ops2 := (reindexOlds al next st0).map EsOp.deleteIndex
  (ops2.foldl applyOp st1, reindexPrefixOps al next ++ ops2)

/-- Every backend state observable during the pass: the initial state and
the state after each request ("instants" between atomic backend calls). -/
def reindexStates (al next : String) (st0 : ES) : List ES :=
  (reindexOne al next st0).2.scanl applyOp st0

/-! ## `_next_index_name`

`'{}-{}'.format(name, timezone.now().strftime('%Y.%m.%d.%H.%M.%S'))`.
Each `strftime` field is a zero-padded fixed-width decimal: `%Y` four
digits (years in 1000..9999, as produced by `timezone.now()`), the others
two digits. -/

/-- Zero-padded big-endian decimal digits of `n`, exactly `w` of them. -/
def padDigits : Nat → Nat → List Nat
  | 0, _ => []
  | w + 1, n => padDigits w (n / 10) ++ [n % 10]

/-- The `w`-character zero-padded decimal rendering of `n`. -/
def padChars (w n : Nat) : List Char := (padDigits w n).map Nat.digitChar

/-- A wall-clock timestamp, as observed by `strftime`. -/
structure Timestamp where
  year : Nat
  month : Nat
  day : Nat
  hour : Nat
  minute : Nat
  second : Nat
deriving DecidableEq, Repr

/-- Field ranges `timezone.now()` can produce (four-digit years). -/
def Timestamp.valid (t : Timestamp) : Prop :=
  1000 ≤ t.year ∧ t.year < 10000 ∧ 1 ≤ t.month ∧ t.month ≤ 12 ∧
    1 ≤ t.day ∧ t.day ≤ 31 ∧ t.hour < 24 ∧ t.minute < 60 ∧ t.second < 60

instance (t : Timestamp) : Decidable t.valid := by
  unfold Timestamp.valid; infer_instance

/-- Chronological order on timestamps: lexicographic on
(year, month, day, hour, minute, second). -/
def Timestamp.chrono (a b : Timestamp) : Prop :=
  a.year < b.year ∨ (a.year = b.year ∧ (a.month < b.month ∨ (a.month = b.month ∧
    (a.day < b.day ∨ (a.day = b.day ∧ (a.hour < b.hour ∨ (a.hour = b.hour ∧
      (a.minute < b.minute ∨ (a.minute = b.minute ∧ a.second < b.second)))))))))

instance (a b : Timestamp) : Decidable (a.chrono b) := by
  unfold Timestamp.chrono; infer_instance

/-- `strftime('%Y.%m.%d.%H.%M.%S')`, character by character. -/
def formatChars (t : Timestamp) : List Char :=
  padChars 4 t.year ++ ['.'] ++ padChars 2 t.month ++ ['.'] ++ padChars 2 t.day
    ++ ['.'] ++ padChars 2 t.hour ++ ['.'] ++ padChars 2 t.minute ++ ['.']
    ++ padChars 2 t.second

/-- The formatted timestamp as a string. -/
def formatTimestamp (t : Timestamp) : String := String.mk (formatChars t)

/-- `_next_index_name(name)`:
`'{}-{}'.format(name, timezone.now().strftime('%Y.%m.%d.%H.%M.%S'))`,
with the clock reading passed explicitly. -/
def nextIndexName (name : String) (t : Timestamp) : String :=
  name ++ "-" ++ formatTimestamp t

section LexLemmas

theorem padDigits_length (w n : Nat) : (padDigits w n).length = w := by
  induction w generalizing n with
  | zero => rfl
  | succ w ih => simp [padDigits, ih]

theorem padChars_length (w n : Nat) : (padChars w n).length = w := by
  simp [padChars, padDigits_length]

theorem padChars_succ (w n : Nat) :
    padChars (w + 1) n = padChars w (n / 10) ++ [Nat.digitChar (n % 10)] := by
  simp [padChars, padDigits]

theorem digitChar_lt_digitChar : ∀ a : Nat, a < 10 → ∀ b : Nat, b < 10 →
    a < b → Nat.digitChar a < Nat.digitChar b := by decide

theorem lex_append_left (p l1 l2 : List Char) (h : List.Lex (· < ·) l1 l2) :
    List.Lex (· < ·) (p ++ l1) (p ++ l2) := by
  induction p with
  | nil => exact h
  | cons c cs ih => exact List.Lex.cons ih

theorem lex_append_of_length_eq (l1 l2 r1 r2 : List Char)
    (h : List.Lex (· < ·) l1 l2) (hlen : l1.length = l2.length) :
    List.Lex (· < ·) (l1 ++ r1) (l2 ++ r2) := by
  induction h with
  | nil => simp at hlen
  | @cons a as bs h ih => exact List.Lex.cons (ih (by simpa using hlen))
  | rel hab => exact List.Lex.rel hab

theorem padChars_lt (w : Nat) : ∀ n m : Nat, n < m → m < 10 ^ w →
    List.Lex (· < ·) (padChars w n) (padChars w m) := by
  induction w with
  | zero => intro n m hnm hm; omega
  | succ w ih =>
    intro n m hnm hm
    rw [padChars_succ, padChars_succ]
    rcases Nat.lt_or_ge (n / 10) (m / 10) with h | h
    · refine lex_append_of_length_eq _ _ _ _ (ih _ _ h ?_) (by simp [padChars_length])
      rw [pow_succ] at hm
      exact (Nat.div_lt_iff_lt_mul (by norm_num)).mpr hm
    · have heq : n / 10 = m / 10 :=
        le_antisymm (Nat.div_le_div_right (le_of_lt hnm)) h
      have hd1 := Nat.div_add_mod n 10
      have hd2 := Nat.div_add_mod m 10
      have hmod : n % 10 < m % 10 := by omega
      rw [heq]
      exact lex_append_left _ _ _
        (List.Lex.rel (digitChar_lt_digitChar _ (Nat.mod_lt _ (by norm_num)) _
          (Nat.mod_lt _ (by norm_num)) hmod))

/-- Two-digit zero-padded fields compare lexicographically like their
values, whatever follows them. -/
theorem lex_field2 (v1 v2 : Nat) (r1 r2 : List Char) (h : v1 < v2) (hv : v2 < 100) :
    List.Lex (· < ·) (padChars 2 v1 ++ r1) (padChars 2 v2 ++ r2) :=
  lex_append_of_length_eq _ _ _ _ (padChars_lt 2 v1 v2 h (by norm_num [hv]))
    (by simp [padChars_length])

theorem formatChars_lt (t1 t2 : Timestamp) (h2 : t2.valid)
    (h : t1.chrono t2) :
    List.Lex (· < ·) (formatChars t1) (formatChars t2) := by
  obtain ⟨-, hy2, -, hmo2, -, hd2, hh2, hmi2, hs2⟩ := h2
  unfold formatChars
  simp only [List.append_assoc, List.singleton_append]
  rcases h with hy | ⟨hy, h⟩
  · exact lex_append_of_length_eq _ _ _ _ (padChars_lt 4 _ _ hy (by norm_num [hy2]))
      (by simp [padChars_length])
  rw [hy]; apply lex_append_left; apply List.Lex.cons
  rcases h with hmo | ⟨hmo, h⟩
  · exact lex_field2 _ _ _ _ hmo (by omega)
  rw [hmo]; apply lex_append_left; apply List.Lex.cons
  rcases h with hd | ⟨hd, h⟩
  · exact lex_field2 _ _ _ _ hd (by omega)
  rw [hd]; apply lex_append_left; apply List.Lex.cons
  rcases h with hh | ⟨hh, h⟩
  · exact lex_field2 _ _ _ _ hh (by omega)
  rw [hh]; apply lex_append_left; apply List.Lex.cons
  rcases h with hmi | ⟨hmi, hs⟩
  · exact lex_field2 _ _ _ _ hmi (by omega)
  rw [hmi]; apply lex_append_left; apply List.Lex.cons
  exact lex_append_of_length_eq _ _ [] [] (padChars_lt 2 _ _ hs (by omega))
    (by simp [padChars_length])

end LexLemmas

section ReindexLemmas

theorem map_snd_filter_ne (l : List (String × String)) (o : String) :
    (l.filter (·.2 ≠ o)).map (·.2) = (l.map (·.2)).filter (· ≠ o) := by
  induction l with
  | nil => rfl
  | cons p t ih => by_cases h : p.2 = o <;> simp [h] <;> simpa using ih

theorem filterPairs_erase (ps : List (String × String)) (o a : String) :
    ((ps.filter (·.2 ≠ o)).filter (·.1 == a)).map (·.2)
      = ((ps.filter (·.1 == a)).map (·.2)).filter (· ≠ o) := by
  rw [List.filter_comm, map_snd_filter_ne]

theorem aliasIndices_deleteIndex (st : ES) (o a : String) :
    aliasIndices (applyOp st (.deleteIndex o)) a = (aliasIndices st a).filter (· ≠ o) :=
  filterPairs_erase st.aliasPairs o a

theorem aliasIndices_mk_append (ins : List String) (ps qs : List (String × String))
    (a : String) :
    aliasIndices ⟨ins, ps ++ qs⟩ a = aliasIndices ⟨ins, ps⟩ a ++ aliasIndices ⟨ins, qs⟩ a := by
  simp [aliasIndices, List.filter_append]

/-- After the combined remove-then-add `update_aliases` request, an alias
all of whose current indices match the removal pattern points at exactly
the added index. -/
theorem swapAlias_resets (st : ES) (a next : String)
    (h : ∀ x ∈ aliasIndices st a, matchesPattern a x = true) :
    aliasIndices (applyOp st (.swapAlias a (a ++ "-") next)) a = [next] := by
  show aliasIndices ⟨st.indices,
    st.aliasPairs.filter (fun p => ¬ (p.1 == a && patMatches (a ++ "-") p.2))
      ++ [(a, next)]⟩ a = [next]
  rw [aliasIndices_mk_append]
  have h1 : aliasIndices ⟨st.indices,
      st.aliasPairs.filter (fun p => ¬ (p.1 == a && patMatches (a ++ "-") p.2))⟩ a = [] := by
    unfold aliasIndices
    simp only [List.map_eq_nil_iff]
    rw [List.filter_eq_nil_iff]
    rintro ⟨p1, p2⟩ hp hpa
    have hp' := List.mem_filter.mp hp
    have hmem : p2 ∈ aliasIndices st a := by
      unfold aliasIndices
      exact List.mem_map.mpr ⟨(p1, p2), List.mem_filter.mpr ⟨hp'.1, hpa⟩, rfl⟩
    have hmatch : matchesPattern a p2 = true := h p2 hmem
    have : patMatches (a ++ "-") p2 = matchesPattern a p2 := rfl
    simp [hpa, this, hmatch] at hp'
  rw [h1]
  simp [aliasIndices]

/-- The backend state after the five pre-reclaim requests, for a fresh
generation name. -/
theorem reindexMid_spec (al next : String) (st0 : ES)
    (hNP : (al, next) ∉ st0.aliasPairs) (hNI : next ∉ st0.indices) :
    reindexMid al next st0 =
      applyOp ⟨st0.indices ++ [next], st0.aliasPairs ++ [(al, next)]⟩
        (.swapAlias al (al ++ "-") next) := by
  simp [reindexMid, reindexPrefixOps, applyOp, hNI, hNP]

theorem reindexMid_alias (al i0 next : String) (st0 : ES)
    (hA : aliasIndices st0 al = [i0]) (hM : matchesPattern al i0 = true)
    (hNm : matchesPattern al next = true)
    (hNP : (al, next) ∉ st0.aliasPairs) (hNI : next ∉ st0.indices) :
    aliasIndices (reindexMid al next st0) al = [next] := by
  rw [reindexMid_spec al next st0 hNP hNI]
  apply swapAlias_resets
  intro x hx
  have : aliasIndices ⟨st0.indices ++ [next], st0.aliasPairs ++ [(al, next)]⟩ al
      = aliasIndices ⟨st0.indices ++ [next], st0.aliasPairs⟩ al ++ [next] := by
    rw [aliasIndices_mk_append]; simp [aliasIndices]
  rw [this] at hx
  have hA' : aliasIndices ⟨st0.indices ++ [next], st0.aliasPairs⟩ al = [i0] := hA
  rw [hA'] at hx
  rcases List.mem_append.mp hx with hx' | hx'
  · rw [List.mem_singleton.mp hx']; exact hM
  · rw [List.mem_singleton.mp hx']; exact hNm

theorem reindexMid_indices (al next : String) (st0 : ES) (hNI : next ∉ st0.indices) :
    (reindexMid al next st0).indices = st0.indices ++ [next] := by
  simp [reindexMid, reindexPrefixOps, applyOp, hNI]

theorem reindexOlds_spec (al next : String) (st0 : ES) (hNI : next ∉ st0.indices) :
    reindexOlds al next st0
      = (st0.indices.filter (matchesPattern al)).filter (· ≠ next) := by
  unfold reindexOlds
  rw [reindexMid_indices al next st0 hNI]
  simp [List.filter_append]

theorem next_not_mem_reindexOlds (al next : String) (st0 : ES) :
    next ∉ reindexOlds al next st0 := by
  unfold reindexOlds
  intro h
  have := List.mem_filter.mp h
  simp at this

theorem foldl_deletes_alias (al next : String) :
    ∀ (olds : List String) (st : ES), aliasIndices st al = [next] → next ∉ olds →
      aliasIndices ((olds.map EsOp.deleteIndex).foldl applyOp st) al = [next] := by
  intro olds
  induction olds with
  | nil => intro st h _; exact h
  | cons o t ih =>
    intro st h hn
    rw [List.map_cons, List.foldl_cons]
    apply ih
    · rw [aliasIndices_deleteIndex, h]
      have : next ≠ o := fun he => hn (he ▸ List.mem_cons_self o t)
      simp [this]
    · exact fun hm => hn (List.mem_cons_of_mem o hm)

theorem scanl_deletes_alias (al next : String) :
    ∀ (olds : List String) (st : ES), aliasIndices st al = [next] → next ∉ olds →
      ∀ s ∈ (olds.map EsOp.deleteIndex).scanl applyOp st, aliasIndices s al = [next] := by
  intro olds
  induction olds with
  | nil =>
    intro st h _ s hs
    rw [List.map_nil, List.scanl_nil, List.mem_singleton] at hs
    exact hs ▸ h
  | cons o t ih =>
    intro st h hn s hs
    rw [List.map_cons, List.scanl_cons] at hs
    rcases List.mem_cons.mp hs with rfl | hs'
    · exact h
    · refine ih (applyOp st (.deleteIndex o)) ?_ (fun hm => hn (List.mem_cons_of_mem o hm)) s hs'
      rw [aliasIndices_deleteIndex, h]
      have : next ≠ o := fun he => hn (he ▸ List.mem_cons_self o t)
      simp [this]

end ReindexLemmas

section DeleteCmdLemmas

theorem deleteCmd_abort (names : List String) (response : String) (st : List String)
    (h : pyLower response ≠ "y") :
    deleteCmd names false response st = .ok (false, st, []) := by
  unfold deleteCmd
  rw [if_pos ⟨rfl, h⟩]

theorem deleteCmd_run (names : List String) (force : Bool) (response : String)
    (st : List String) (h : force = true ∨ pyLower response = "y") :
    deleteCmd names force response st
      = .ok (true, st.filter (fun x => ¬ x ∈ names), names) := by
  unfold deleteCmd
  rw [if_neg (by rcases h with h | h <;> simp [h]), deleteIndices_ok]
  rfl

end DeleteCmdLemmas

/-! ## Claim theorems -/

/-- C3: filter resolution fails with `CommandError` if and only if at least
one filter element matches zero registered bindings.  The `Except` result
makes the fail-fast shape structural: on error no binding list is returned
at all (and resolution performs no backend action), so there is no partial
result for the filter elements that did match. -/
theorem C3_resolution_fail_fast (reg : List Model) (args : List String) :
    (∃ msg, getModels reg args = .error msg) ↔
      ∃ arg ∈ args, reg.filter (matchesArg (pyLower arg)) = [] := by
  by_cases h : args.isEmpty
  · rw [List.isEmpty_iff] at h
    subst h
    simp [getModels]
  · rw [getModels, if_neg h]
    exact resolveLoop_error_iff reg args []

/-- C4 counterexample: the registered app identifier `Blog` (capitalised)
and the filter string `Blog`, equal to it up to case, do NOT match: the
source lowercases only the filter in the app-level comparison, so
resolution raises `CommandError` instead of returning the binding. -/
theorem C4_counterexample :
    getModels [⟨"Blog", "post"⟩] ["Blog"] = .error "No model or app named Blog" := by
  rfl

/-- C4 as amended: matching is exact (string equality, never prefix or
fuzzy), and characterised per form: a filter matches a binding iff its
lowercased form equals the registered `app_label` verbatim (app-level:
case-insensitive in the filter only), or equals the lowercased
`app.model` qualified identifier (qualified: case-insensitive in both the
filter and the registered identifiers, as witnessed by the second
conjunct). -/
theorem C4_matching_forms (m : Model) (arg : String) :
    (matchesArg (pyLower arg) m = true ↔
      (pyLower arg = m.app_label ∨
        pyLower arg = pyLower m.app_label ++ "." ++ pyLower m.model_name)) ∧
    pyLower (m.app_label ++ "." ++ m.model_name)
      = pyLower m.app_label ++ "." ++ pyLower m.model_name := by
  constructor
  · unfold matchesArg
    rw [Bool.or_eq_true, beq_iff_eq, beq_iff_eq]
    constructor
    · rintro (h | h)
      · exact Or.inl h.symm
      · exact Or.inr h.symm
    · rintro (h | h)
      · exact Or.inl h.symm
      · exact Or.inr h.symm
  · unfold pyLower
    show String.mk _ = String.mk ((m.app_label.data.map Char.toLower ++ ['.'])
      ++ m.model_name.data.map Char.toLower)
    congr 1
    simp [String.data_append]

/-- C5: resolving the empty filter list returns every registered binding,
and any successful resolution is a subset of the full registry (membership
inclusion; the Python `set()` only deduplicates). -/
theorem C5_resolve_subset (reg : List Model) (args : List String) :
    getModels reg [] = .ok reg ∧
    ∀ ms, getModels reg args = .ok ms → ∀ m ∈ ms, m ∈ reg := by
  refine ⟨rfl, ?_⟩
  intro ms h m hm
  by_cases ha : args.isEmpty
  · rw [getModels, if_pos ha] at h
    cases h
    exact hm
  · rw [getModels, if_neg ha] at h
    rcases resolveLoop_ok_subset reg args [] ms h m hm with h' | h'
    · simp at h'
    · exact h'

theorem C5_witness :
    (⟨"blog", "post"⟩ : Model) ∈ ([⟨"blog", "post"⟩] : List Model) :=
  (C5_resolve_subset [⟨"blog", "post"⟩] ["blog"]).2 [⟨"blog", "post"⟩] rfl
    ⟨"blog", "post"⟩ (List.mem_singleton.mpr rfl)

/-- C6: an unforced delete with a non-affirmative confirmation aborts the
whole operation: the result is the value `False` (an ordinary return,
distinguishable from the `True` of success, not an exception), the backend
state is untouched, and the list of issued backend delete calls is empty. -/
theorem C6_unforced_abort (names : List String) (response : String)
    (st : List String) (h : pyLower response ≠ "y") :
    deleteCmd names false response st = .ok (false, st, []) :=
  deleteCmd_abort names response st h

theorem C6_witness :
    deleteCmd ["blog"] false "n" ["blog"] = .ok (false, ["blog"], []) :=
  C6_unforced_abort ["blog"] "n" ["blog"] (by decide)

/-- C7: delete is idempotent.  Removing one index treats absence as
success (`ignore=404`: the filter equation holds whether or not the index
exists, never an error), and running the forced delete twice on the same
binding set succeeds both times with the same resulting backend state —
the second run is a no-op. -/
theorem C7_delete_idempotent (names : List String) (response : String)
    (st : List String) (n : String) :
    indexDelete true n st = .ok (st.filter (· ≠ n)) ∧
    ∃ st1, deleteCmd names true response st = .ok (true, st1, names) ∧
           deleteCmd names true response st1 = .ok (true, st1, names) := by
  refine ⟨indexDelete_ignore n st, st.filter (fun x => ¬ x ∈ names), ?_, ?_⟩
  · exact deleteCmd_run names true response st (Or.inl rfl)
  · have hff : (st.filter (fun x => ¬ x ∈ names)).filter (fun x => ¬ x ∈ names)
        = st.filter (fun x => ¬ x ∈ names) := by
      rw [List.filter_filter]
      apply List.filter_congr
      intro a _
      by_cases hx : a ∈ names <;> simp [hx]
    rw [deleteCmd_run names true response _ (Or.inl rfl), hff]

/-- C8: rebuild is delete, then create, then populate, strictly in that
order, and an aborted delete (unforced, non-affirmative confirmation)
halts the chain with no create and no populate operation issued (the
trace is empty: the aborted delete issued no backend calls either). -/
theorem C8_rebuild_sequence (names docs : List String) (response : String)
    (st : List String) :
    (pyLower response ≠ "y" →
      rebuildCmd names docs false response st = .ok []) ∧
    rebuildCmd names docs true response st =
      .ok (names.map CmdOp.deleteIdx ++ names.map CmdOp.createIdx
        ++ docs.map CmdOp.populateDoc) := by
  constructor
  · intro h
    unfold rebuildCmd
    rw [deleteCmd_abort names response st h]
    rfl
  · unfold rebuildCmd
    rw [deleteCmd_run names true response st (Or.inl rfl)]
    rfl

theorem C8_witness :
    pyLower "no" ≠ "y" ∧ rebuildCmd ["blog"] ["post"] false "no" ["blog"] = .ok [] :=
  ⟨by decide, (C8_rebuild_sequence ["blog"] ["post"] "no" ["blog"]).1 (by decide)⟩

/-- C10: the unforced confirmation is affirmative iff the response,
lowercased, is exactly the single character `y`; every other response —
`"yes"` included, despite the `[n/Y]` prompt text — takes the abort path. -/
theorem C10_affirmative_iff (names : List String) (response : String)
    (st : List String) :
    ((∃ st1, deleteCmd names false response st = .ok (true, st1, names)) ↔
      pyLower response = "y") ∧
    deleteCmd names false "yes" st = .ok (false, st, []) := by
  constructor
  · constructor
    · rintro ⟨st1, h1⟩
      by_contra hny
      rw [deleteCmd_abort names response st hny] at h1
      simp at h1
    · intro hy
      exact ⟨_, deleteCmd_run names false response st (Or.inr hy)⟩
  · exact deleteCmd_abort names "yes" st (by decide)

/-- C9: `_next_index_name` is the alias, a hyphen, and the
`%Y.%m.%d.%H.%M.%S` timestamp — a fixed 19-character zero-padded layout —
and for two clock readings in chronological order the generated names are
in strict lexicographic order (same-second collisions excluded by the
strict order hypothesis). -/
theorem C9_generation_name_sortable (name : String) (t1 t2 : Timestamp)
    (h1 : t1.valid) (h2 : t2.valid) (h12 : t1.chrono t2) :
    nextIndexName name t1 = name ++ "-" ++ formatTimestamp t1 ∧
    (formatTimestamp t1).length = 19 ∧
    nextIndexName name t1 < nextIndexName name t2 := by
  refine ⟨rfl, ?_, ?_⟩
  · show (formatTimestamp t1).data.length = 19
    simp [formatTimestamp, formatChars, padChars_length]
  · rw [String.lt_iff_toList_lt]
    have hdata : ∀ t : Timestamp, (nextIndexName name t).toList
        = (name.data ++ ['-']) ++ formatChars t := by
      intro t
      show ((name ++ "-") ++ formatTimestamp t).data = _
      rw [String.data_append, String.data_append]
      rfl
    rw [hdata, hdata]
    show List.Lex (· < ·) _ _
    exact lex_append_left _ _ _ (formatChars_lt t1 t2 h2 h12)

theorem C9_witness :
    nextIndexName "articles" ⟨2020, 1, 1, 0, 0, 0⟩
      < nextIndexName "articles" ⟨2020, 1, 2, 0, 0, 0⟩ :=
  (C9_generation_name_sortable "articles" ⟨2020, 1, 1, 0, 0, 0⟩ ⟨2020, 1, 2, 0, 0, 0⟩
    (by decide) (by decide) (by decide)).2.2

/-- The full list of observable states of one `_reindex` pass, for a fresh
generation name: initial state; after create (bulk-write and refresh do not
change the backend state); after the standalone `put_alias`; then one state
per reclaim delete starting from the post-swap state. -/
theorem reindexStates_spec (al next : String) (st0 : ES)
    (hNP : (al, next) ∉ st0.aliasPairs) (hNI : next ∉ st0.indices) :
    reindexStates al next st0 =
      st0 :: ⟨st0.indices ++ [next], st0.aliasPairs⟩
        :: ⟨st0.indices ++ [next], st0.aliasPairs⟩
        :: ⟨st0.indices ++ [next], st0.aliasPairs⟩
        :: ⟨st0.indices ++ [next], st0.aliasPairs ++ [(al, next)]⟩
        :: ((reindexOlds al next st0).map EsOp.deleteIndex).scanl applyOp
             (reindexMid al next st0) := by
  simp [reindexStates, reindexOne, reindexMid, reindexPrefixOps, applyOp, hNI, hNP,
    List.scanl_cons, List.cons_append]

/-- C1 counterexample: with the alias `a` initially on the single old
generation `a-1`, reindexing to `a-2` exhibits an observable instant at
which the alias points at two indices — the standalone `put_alias` call
precedes the combined `update_aliases` request, so the add is visible
before the removal.  The claim that the alias points at exactly one index
at every instant is therefore false of the code. -/
theorem C1_counterexample :
    ¬ ∀ s ∈ reindexStates "a" "a-2" ⟨["a-1"], [("a", "a-1")]⟩,
        (aliasIndices s "a").length = 1 := by
  decide

/-- C1 as amended: the removal of the alias from every index matching
`<alias>-*` and the (re-)add to the new generation are indeed issued as
one combined atomic `update_aliases` request, and the alias never points
at zero indices at any observable instant; but because a standalone
`put_alias` precedes that combined request, there is an instant at which
the alias points at two indices (old and new).  After the combined request
the alias points at exactly the new generation. -/
theorem C1_alias_transition (al i0 next : String) (st0 : ES)
    (hA : aliasIndices st0 al = [i0]) (hM : matchesPattern al i0 = true)
    (hNm : matchesPattern al next = true)
    (hNP : (al, next) ∉ st0.aliasPairs) (hNI : next ∉ st0.indices) :
    EsOp.swapAlias al (al ++ "-") next ∈ (reindexOne al next st0).2 ∧
    (∀ s ∈ reindexStates al next st0,
      (aliasIndices s al).length = 1 ∨ (aliasIndices s al).length = 2) ∧
    aliasIndices (reindexMid al next st0) al = [next] := by
  refine ⟨?_, ?_, reindexMid_alias al i0 next st0 hA hM hNm hNP hNI⟩
  · simp [reindexOne, reindexPrefixOps]
  · intro s hs
    rw [reindexStates_spec al next st0 hNP hNI] at hs
    have hpairs : aliasIndices ⟨st0.indices ++ [next], st0.aliasPairs⟩ al = [i0] := hA
    have hput : aliasIndices ⟨st0.indices ++ [next],
        st0.aliasPairs ++ [(al, next)]⟩ al = [i0, next] := by
      rw [aliasIndices_mk_append, hpairs]
      simp [aliasIndices]
    rcases List.mem_cons.mp hs with rfl | hs
    · left; rw [hA]; rfl
    rcases List.mem_cons.mp hs with rfl | hs
    · left; rw [hpairs]; rfl
    rcases List.mem_cons.mp hs with rfl | hs
    · left; rw [hpairs]; rfl
    rcases List.mem_cons.mp hs with rfl | hs
    · left; rw [hpairs]; rfl
    rcases List.mem_cons.mp hs with rfl | hs
    · right; rw [hput]; rfl
    · left
      rw [scanl_deletes_alias al next (reindexOlds al next st0)
        (reindexMid al next st0)
        (reindexMid_alias al i0 next st0 hA hM hNm hNP hNI)
        (next_not_mem_reindexOlds al next st0) s hs]
      rfl

theorem C1_witness :
    EsOp.swapAlias "a" ("a" ++ "-") "a-2"
        ∈ (reindexOne "a" "a-2" ⟨["a-1"], [("a", "a-1")]⟩).2 ∧
    aliasIndices (reindexMid "a" "a-2" ⟨["a-1"], [("a", "a-1")]⟩) "a" = ["a-2"] :=
  have h := C1_alias_transition "a" "a-1" "a-2" ⟨["a-1"], [("a", "a-1")]⟩
    (by decide) (by decide) (by decide) (by decide) (by decide)
  ⟨h.1, h.2.2⟩

/-- C2: starting from an alias on exactly one (old-generation) index, a
completed `_reindex` pass leaves the alias on exactly one index — the new
generation — and the reclaim deletions are exactly the indices of the
fresh post-swap backend listing that match `<alias>-*` and are not the
just-created generation: every older generation is deleted, not only the
immediately-previous one, and nothing else is. -/
theorem C2_reindex_reclaim (al i0 next : String) (st0 : ES)
    (hA : aliasIndices st0 al = [i0]) (hM : matchesPattern al i0 = true)
    (hNm : matchesPattern al next = true)
    (hNP : (al, next) ∉ st0.aliasPairs) (hNI : next ∉ st0.indices) :
    aliasIndices (reindexOne al next st0).1 al = [next] ∧
    ∀ n, EsOp.deleteIndex n ∈ (reindexOne al next st0).2 ↔
      (n ∈ (reindexMid al next st0).indices ∧ matchesPattern al n = true ∧ n ≠ next) := by
  constructor
  · show aliasIndices (((reindexOlds al next st0).map EsOp.deleteIndex).foldl applyOp
      (reindexMid al next st0)) al = [next]
    exact foldl_deletes_alias al next (reindexOlds al next st0) (reindexMid al next st0)
      (reindexMid_alias al i0 next st0 hA hM hNm hNP hNI)
      (next_not_mem_reindexOlds al next st0)
  · intro n
    show EsOp.deleteIndex n ∈ reindexPrefixOps al next
        ++ (reindexOlds al next st0).map EsOp.deleteIndex ↔ _
    rw [List.mem_append]
    constructor
    · rintro (h | h)
      · simp [reindexPrefixOps] at h
      · rcases List.mem_map.mp h with ⟨x, hx, hinj⟩
        cases hinj
        have h1 := List.mem_filter.mp hx
        have h2 := List.mem_filter.mp h1.1
        refine ⟨h2.1, h2.2, ?_⟩
        simpa using h1.2
    · rintro ⟨hmem, hmatch, hne⟩
      right
      apply List.mem_map.mpr
      refine ⟨n, ?_, rfl⟩
      unfold reindexOlds
      exact List.mem_filter.mpr ⟨List.mem_filter.mpr ⟨hmem, hmatch⟩, by simpa using hne⟩

theorem C2_witness :
    aliasIndices (reindexOne "a" "a-2" ⟨["a-1"], [("a", "a-1")]⟩).1 "a" = ["a-2"] ∧
    (EsOp.deleteIndex "a-1" ∈ (reindexOne "a" "a-2" ⟨["a-1"], [("a", "a-1")]⟩).2 ↔
      ("a-1" ∈ (reindexMid "a" "a-2" ⟨["a-1"], [("a", "a-1")]⟩).indices ∧
        matchesPattern "a" "a-1" = true ∧ "a-1" ≠ "a-2")) :=
  have h := C2_reindex_reclaim "a" "a-1" "a-2" ⟨["a-1"], [("a", "a-1")]⟩
    (by decide) (by decide) (by decide) (by decide) (by decide)
  ⟨h.1, h.2 "a-1"⟩

theorem C3_witness :
    ∃ msg, getModels [⟨"blog", "post"⟩] ["nonexistent"] = .error msg :=
  (C3_resolution_fail_fast [⟨"blog", "post"⟩] ["nonexistent"]).mpr
    ⟨"nonexistent", List.mem_singleton.mpr rfl, by decide⟩

theorem C4_witness :
    matchesArg (pyLower "BLOG.Post") ⟨"Blog", "Post"⟩ = true :=
  (C4_matching_forms ⟨"Blog", "Post"⟩ "BLOG.Post").1.mpr (Or.inr (by decide))

theorem C7_witness :
    indexDelete true "blog" [] = .ok ([] : List String) :=
  (C7_delete_idempotent [] "y" [] "blog").1

theorem C10_witness :
    deleteCmd ["blog"] false "yes" ["blog"] = .ok (false, ["blog"], []) :=
  (C10_affirmative_iff ["blog"] "yes" ["blog"]).2
